import Mathlib

/-!
Verification of the `ssegen` code generator (`cmd/ssegen/main.go`).

The generator reads an OpenAPI YAML document, extracts the mapping at
`components.x-sse-events`, normalizes each entry's key (to `CamelCase`) and
wire name (to `lowerCamelCase`), sorts the entries by normalized key, and
renders a language template (`go` or `ts`), formatting the result with the Go
source formatter in the `go` case.

The embedding below models:
  * the data model (`SSEEvent`, `OpenAPISpec`, `Config`, `TemplateData`);
  * the normalization functions applied by `getEvents` (the `strcase`
    library is an external dependency whose source is not part of this
    repository, so it is modelled from the spec, see `splitFrags`);
  * the post-parse body of `getEvents` (file reading and YAML unmarshalling
    are I/O performed upstream; on parse success the body is total);
  * `generateCode` and `generateSSEEvents`, with the two templates and the
    Go source formatter - external collaborators not present in the
    repository - taken as parameters;
  * `parseFlags` and the gating in `main`.

Strings are modelled as Lean `String` (lists of Unicode scalar values).
`strings.Compare` in Go is byte-wise lexicographic comparison of the UTF-8
encodings; UTF-8 encoding is order-isomorphic to code-point order, so it is
modelled as lexicographic comparison of code points (`strLe` below).
-/

namespace SSEGen

/-! ### ASCII character classes, as in the byte-level Go code -/

/-- ASCII uppercase letter test (`v >= 'A' && v <= 'Z'`). -/
def isUp (c : Char) : Bool := decide (65 ≤ c.toNat ∧ c.toNat ≤ 90)

/-- ASCII lowercase letter test (`v >= 'a' && v <= 'z'`). -/
def isLo (c : Char) : Bool := decide (97 ≤ c.toNat ∧ c.toNat ≤ 122)

/-- ASCII digit test (`v >= '0' && v <= '9'`). -/
def isDigitA (c : Char) : Bool := decide (48 ≤ c.toNat ∧ c.toNat ≤ 57)

/-- Alphanumeric: uppercase, lowercase, or digit. -/
def isAlnum (c : Char) : Bool := isUp c || isLo c || isDigitA c

/-- Uppercase an ASCII lowercase letter (`v += 'A' - 'a'`); other characters
are unchanged. -/
def toUpChar (c : Char) : Char :=
  if isLo c then Char.ofNat (c.toNat - 32) else c

/-- Lowercase an ASCII uppercase letter (`v += 'a' - 'A'`); other characters
are unchanged. -/
def toLoChar (c : Char) : Char :=
  if isUp c then Char.ofNat (c.toNat + 32) else c

theorem toNat_ofNat_lt {n : Nat} (h : n < 55296) : (Char.ofNat n).toNat = n := by
  unfold Char.ofNat
  rw [dif_pos (Or.inl h)]
  rfl

theorem toNat_le_of_lo {c : Char} (h : isLo c = true) :
    97 ≤ c.toNat ∧ c.toNat ≤ 122 := by
  simpa [isLo] using h

theorem toNat_le_of_up {c : Char} (h : isUp c = true) :
    65 ≤ c.toNat ∧ c.toNat ≤ 90 := by
  simpa [isUp] using h

theorem lo_of_not_up_alnum {c : Char} (h : isUp c = true) : isLo c = false := by
  have := toNat_le_of_up h
  simp [isLo]
  omega

theorem toUpChar_of_not_lo {c : Char} (h : isLo c = false) : toUpChar c = c := by
  simp [toUpChar, h]

theorem toLoChar_of_not_up {c : Char} (h : isUp c = false) : toLoChar c = c := by
  simp [toLoChar, h]

theorem toUpChar_of_up {c : Char} (h : isUp c = true) : toUpChar c = c :=
  toUpChar_of_not_lo (lo_of_not_up_alnum h)

theorem toNat_toUpChar_of_lo {c : Char} (h : isLo c = true) :
    (toUpChar c).toNat = c.toNat - 32 := by
  have hb := toNat_le_of_lo h
  have hv : c.toNat - 32 < 55296 := by omega
  simp [toUpChar, h, toNat_ofNat_lt hv]

theorem toNat_toLoChar_of_up {c : Char} (h : isUp c = true) :
    (toLoChar c).toNat = c.toNat + 32 := by
  have hb := toNat_le_of_up h
  have hv : c.toNat + 32 < 55296 := by omega
  simp [toLoChar, h, toNat_ofNat_lt hv]

theorem isLo_toUpChar (c : Char) : isLo (toUpChar c) = false := by
  by_cases h : isLo c = true
  · have hb := toNat_le_of_lo h
    rw [show isLo (toUpChar c) = decide (97 ≤ (toUpChar c).toNat ∧ (toUpChar c).toNat ≤ 122) from rfl]
    rw [toNat_toUpChar_of_lo h]
    simp
    omega
  · rw [toUpChar_of_not_lo (by simpa using h)]
    simpa using h

theorem isUp_toLoChar (c : Char) : isUp (toLoChar c) = false := by
  by_cases h : isUp c = true
  · have hb := toNat_le_of_up h
    rw [show isUp (toLoChar c) = decide (65 ≤ (toLoChar c).toNat ∧ (toLoChar c).toNat ≤ 90) from rfl]
    rw [toNat_toLoChar_of_up h]
    simp
    omega
  · rw [toLoChar_of_not_up (by simpa using h)]
    simpa using h

theorem isAlnum_toUpChar {c : Char} (h : isAlnum c = true) :
    isAlnum (toUpChar c) = true := by
  by_cases hlo : isLo c = true
  · have hb := toNat_le_of_lo hlo
    have hup : isUp (toUpChar c) = true := by
      rw [show isUp (toUpChar c) = decide (65 ≤ (toUpChar c).toNat ∧ (toUpChar c).toNat ≤ 90) from rfl]
      rw [toNat_toUpChar_of_lo hlo]
      simp
      omega
    simp [isAlnum, hup]
  · rw [toUpChar_of_not_lo (by simpa using hlo)]
    exact h

theorem isAlnum_toLoChar {c : Char} (h : isAlnum c = true) :
    isAlnum (toLoChar c) = true := by
  by_cases hup : isUp c = true
  · have hb := toNat_le_of_up hup
    have hlo : isLo (toLoChar c) = true := by
      rw [show isLo (toLoChar c) = decide (97 ≤ (toLoChar c).toNat ∧ (toLoChar c).toNat ≤ 122) from rfl]
      rw [toNat_toLoChar_of_up hup]
      simp
      omega
    simp [isAlnum, hlo]
  · rw [toLoChar_of_not_up (by simpa using hup)]
    exact h

/-! ### The normalizer, modelled from the spec

The Go code calls `strcase.ToCamel` / `strcase.ToLowerCamel` from the
`github.com/iancoleman/strcase` dependency, whose source is not part of this
repository. -/

/-- Modelled from the spec: "split the input on non-alphanumeric separators
and internal case transitions". Separators (non-alphanumeric characters) are
dropped; a case transition is a lowercase letter immediately followed by an
uppercase letter. The result is the list of word fragments, in order. -/
def splitFrags : List Char → List (List Char)
  | [] => []
  | c :: cs =>
    if isAlnum c then
      match cs with
      | [] => [[c]]
      | d :: _ =>
        if isAlnum d && !(isLo c && isUp d) then
          match splitFrags cs with
          | [] => [[c]]
          | w :: ws => (c :: w) :: ws
        else [c] :: splitFrags cs
    else splitFrags cs

/-- Capitalize a word fragment: uppercase its first character. -/
def capFrag : List Char → List Char
  | [] => []
  | c :: cs => toUpChar c :: cs

/-- Lowercase the leading character of a word fragment. -/
def lowFrag : List Char → List Char
  | [] => []
  | c :: cs => toLoChar c :: cs

/-- Modelled from the spec: "rejoin capitalizing word fragments"
(`message_start` becomes `MessageStart`). -/
def camelList (t : List Char) : List Char :=
  ((splitFrags t).map capFrag).flatten

/-- Modelled from the spec: "rejoin lowercasing the first and capitalizing
subsequent word fragments" (`message_start` becomes `messageStart`). -/
def lowerCamelList (t : List Char) : List Char :=
  match splitFrags t with
  | [] => []
  | w :: ws => lowFrag w ++ (ws.map capFrag).flatten

/-- Modelled from the spec: `strcase.ToCamel`, the key normalization. -/
def toCamel (s : String) : String := String.mk (camelList s.data)

/-- Modelled from the spec: `strcase.ToLowerCamel`, the wire-name
normalization. -/
def toLowerCamel (s : String) : String := String.mk (lowerCamelList s.data)

example : toCamel "message_start" = "MessageStart" := by decide
example : toCamel "message_end" = "MessageEnd" := by decide
example : toLowerCamel "message_start" = "messageStart" := by decide
example : toCamel "" = "" := by decide
example : toLowerCamel "" = "" := by decide
example : toCamel "fooBar" = "FooBar" := by decide
example : toCamel "foo_bar" = "FooBar" := by decide

/-! ### Structure of `splitFrags` -/

theorem splitFrags_sep {c : Char} (cs : List Char) (h : isAlnum c = false) :
    splitFrags (c :: cs) = splitFrags cs := by
  cases cs <;> simp [splitFrags, h]

theorem splitFrags_single {c : Char} (h : isAlnum c = true) :
    splitFrags [c] = [[c]] := by
  simp [splitFrags, h]

theorem splitFrags_join {c d : Char} (cs : List Char) (hc : isAlnum c = true)
    (hj : (isAlnum d && !(isLo c && isUp d)) = true) :
    splitFrags (c :: d :: cs) =
      match splitFrags (d :: cs) with
      | [] => [[c]]
      | w :: ws => (c :: w) :: ws := by
  rw [show splitFrags (c :: d :: cs) =
    (if isAlnum c then
      (if isAlnum d && !(isLo c && isUp d) then
        match splitFrags (d :: cs) with
        | [] => [[c]]
        | w :: ws => (c :: w) :: ws
      else [c] :: splitFrags (d :: cs))
    else splitFrags (d :: cs)) from rfl]
  rw [if_pos hc, if_pos hj]

theorem splitFrags_break {c d : Char} (cs : List Char) (hc : isAlnum c = true)
    (hj : (isAlnum d && !(isLo c && isUp d)) = false) :
    splitFrags (c :: d :: cs) = [c] :: splitFrags (d :: cs) := by
  rw [show splitFrags (c :: d :: cs) =
    (if isAlnum c then
      (if isAlnum d && !(isLo c && isUp d) then
        match splitFrags (d :: cs) with
        | [] => [[c]]
        | w :: ws => (c :: w) :: ws
      else [c] :: splitFrags (d :: cs))
    else splitFrags (d :: cs)) from rfl]
  rw [if_pos hc, if_neg (by rw [hj]; exact Bool.false_ne_true)]

theorem splitFrags_cons_head {c : Char} (cs : List Char) (h : isAlnum c = true) :
    ∃ w ws, splitFrags (c :: cs) = (c :: w) :: ws := by
  cases cs with
  | nil => exact ⟨[], [], splitFrags_single h⟩
  | cons d es =>
    cases hb : (isAlnum d && !(isLo c && isUp d)) with
    | true =>
      rw [splitFrags_join es h hb]
      cases hsp : splitFrags (d :: es) with
      | nil => exact ⟨[], [], rfl⟩
      | cons w ws => exact ⟨w, ws, rfl⟩
    | false =>
      rw [splitFrags_break es h hb]
      exact ⟨[], splitFrags (d :: es), rfl⟩

theorem flatten_splitFrags : ∀ t : List Char,
    (splitFrags t).flatten = t.filter isAlnum
  | [] => rfl
  | c :: cs => by
    cases hc : isAlnum c with
    | false =>
      rw [splitFrags_sep cs hc, flatten_splitFrags cs, List.filter_cons, if_neg (by simp [hc])]
    | true =>
      cases cs with
      | nil => rw [splitFrags_single hc]; simp [hc]
      | cons d es =>
        cases hb : (isAlnum d && !(isLo c && isUp d)) with
        | true =>
          have hd : isAlnum d = true := ((Bool.and_eq_true _ _).mp hb).1
          obtain ⟨w, ws, hsp⟩ := splitFrags_cons_head es hd
          rw [splitFrags_join es hc hb, hsp]
          have h1 : ((c :: d :: w) :: ws).flatten = c :: ((d :: w) :: ws).flatten := by
            simp
          rw [h1, ← hsp, flatten_splitFrags (d :: es)]
          simp [List.filter_cons, hc]
        | false =>
          rw [splitFrags_break es hc hb]
          have h1 : ([c] :: splitFrags (d :: es)).flatten = c :: (splitFrags (d :: es)).flatten := by
            simp
          rw [h1, flatten_splitFrags (d :: es)]
          simp [List.filter_cons, hc]

theorem frags_ne_nil : ∀ (t : List Char), ∀ w ∈ splitFrags t, w ≠ []
  | [] => by intro w hw; simp [splitFrags] at hw
  | c :: cs => by
    intro w hw
    cases hc : isAlnum c with
    | false =>
      rw [splitFrags_sep cs hc] at hw
      exact frags_ne_nil cs w hw
    | true =>
      cases cs with
      | nil =>
        rw [splitFrags_single hc] at hw
        simp at hw
        simp [hw]
      | cons d es =>
        cases hb : (isAlnum d && !(isLo c && isUp d)) with
        | true =>
          have hd : isAlnum d = true := ((Bool.and_eq_true _ _).mp hb).1
          obtain ⟨w0, ws0, hsp⟩ := splitFrags_cons_head es hd
          rw [splitFrags_join es hc hb, hsp] at hw
          rcases List.mem_cons.mp hw with h | h
          · simp [h]
          · exact frags_ne_nil (d :: es) w (by rw [hsp]; exact List.mem_cons_of_mem _ h)
        | false =>
          rw [splitFrags_break es hc hb] at hw
          rcases List.mem_cons.mp hw with h | h
          · simp [h]
          · exact frags_ne_nil (d :: es) w h

theorem frags_alnum : ∀ (t : List Char), ∀ w ∈ splitFrags t, ∀ c ∈ w, isAlnum c = true
  | [] => by intro w hw; simp [splitFrags] at hw
  | c :: cs => by
    intro w hw x hx
    cases hc : isAlnum c with
    | false =>
      rw [splitFrags_sep cs hc] at hw
      exact frags_alnum cs w hw x hx
    | true =>
      cases cs with
      | nil =>
        rw [splitFrags_single hc] at hw
        simp at hw
        subst hw
        simp at hx
        subst hx
        exact hc
      | cons d es =>
        cases hb : (isAlnum d && !(isLo c && isUp d)) with
        | true =>
          have hd : isAlnum d = true := ((Bool.and_eq_true _ _).mp hb).1
          obtain ⟨w0, ws0, hsp⟩ := splitFrags_cons_head es hd
          rw [splitFrags_join es hc hb, hsp] at hw
          rcases List.mem_cons.mp hw with h | h
          · subst h
            rcases List.mem_cons.mp hx with h1 | h1
            · subst h1; exact hc
            · exact frags_alnum (d :: es) (d :: w0)
                (by rw [hsp]; exact List.mem_cons_self _ _) x h1
          · exact frags_alnum (d :: es) w
              (by rw [hsp]; exact List.mem_cons_of_mem _ h) x hx
        | false =>
          rw [splitFrags_break es hc hb] at hw
          rcases List.mem_cons.mp hw with h | h
          · subst h
            simp at hx
            subst hx
            exact hc
          · exact frags_alnum (d :: es) w h x hx

/-- On an all-alphanumeric input, the first fragment starts with the input's
first character and every later fragment starts with an uppercase letter
(fragments can only be opened by a case transition). -/
theorem splitFrags_shape : ∀ (cs : List Char) (c : Char), isAlnum c = true →
    (∀ x ∈ cs, isAlnum x = true) →
    ∃ w ws, splitFrags (c :: cs) = (c :: w) :: ws ∧
      ∀ w' ∈ ws, ∃ hd tl, w' = hd :: tl ∧ isUp hd = true
  | [], c, hc, _ => ⟨[], [], splitFrags_single hc, by intro w hw; simp at hw⟩
  | d :: es, c, hc, hall => by
    have hd : isAlnum d = true := hall d (List.mem_cons_self _ _)
    obtain ⟨w, ws, hsp, hws⟩ :=
      splitFrags_shape es d hd (fun x hx => hall x (List.mem_cons_of_mem _ hx))
    cases hb : (isAlnum d && !(isLo c && isUp d)) with
    | true =>
      refine ⟨d :: w, ws, ?_, hws⟩
      rw [splitFrags_join es hc hb, hsp]
    | false =>
      have hup : isUp d = true := by
        have hb2 := hb
        simp [hd] at hb2
        exact hb2.2
      refine ⟨[], (d :: w) :: ws, ?_, ?_⟩
      · rw [splitFrags_break es hc hb, hsp]
      · intro w' hw'
        rcases List.mem_cons.mp hw' with h | h
        · exact ⟨d, w, h, hup⟩
        · exact hws w' h

theorem capFrag_of_head_up {c : Char} (cs : List Char) (h : isUp c = true) :
    capFrag (c :: cs) = c :: cs := by
  simp [capFrag, toUpChar_of_up h]

theorem map_capFrag_self {L : List (List Char)} (h : ∀ w ∈ L, capFrag w = w) :
    L.map capFrag = L := by
  induction L with
  | nil => rfl
  | cons w ws ih =>
    rw [List.map_cons, h w (List.mem_cons_self _ _),
      ih fun x hx => h x (List.mem_cons_of_mem _ hx)]

/-- `camelList` fixes any all-alphanumeric string whose first character is not
a lowercase letter. -/
theorem camelList_fix (t : List Char) (h1 : ∀ c ∈ t, isAlnum c = true)
    (h2 : ∀ c cs, t = c :: cs → isLo c = false) : camelList t = t := by
  cases t with
  | nil => rfl
  | cons c cs =>
    obtain ⟨w, ws, hsp, hws⟩ := splitFrags_shape cs c
      (h1 c (List.mem_cons_self _ _)) (fun x hx => h1 x (List.mem_cons_of_mem _ hx))
    have hmap : ws.map capFrag = ws := by
      apply map_capFrag_self
      intro w' hw'
      obtain ⟨hd, tl, hw, hup⟩ := hws w' hw'
      rw [hw, capFrag_of_head_up tl hup]
    have hcap : capFrag (c :: w) = c :: w := by
      simp [capFrag, toUpChar_of_not_lo (h2 c cs rfl)]
    have hfl : (splitFrags (c :: cs)).flatten = c :: cs := by
      rw [flatten_splitFrags]
      exact List.filter_eq_self.mpr h1
    calc camelList (c :: cs)
        = ((splitFrags (c :: cs)).map capFrag).flatten := rfl
      _ = (((c :: w) :: ws).map capFrag).flatten := by rw [hsp]
      _ = ((c :: w) :: ws).flatten := by rw [List.map_cons, hcap, hmap]
      _ = (splitFrags (c :: cs)).flatten := by rw [hsp]
      _ = c :: cs := hfl

theorem mem_camelList_alnum (s : List Char) : ∀ c ∈ camelList s, isAlnum c = true := by
  intro c hc
  rw [camelList] at hc
  obtain ⟨l, hl, hcl⟩ := List.mem_flatten.mp hc
  obtain ⟨w, hw, hwl⟩ := List.mem_map.mp hl
  subst hwl
  cases w with
  | nil => simp [capFrag] at hcl
  | cons a as =>
    have halnum := frags_alnum s (a :: as) hw
    rcases List.mem_cons.mp (by simpa [capFrag] using hcl) with h | h
    · subst h
      exact isAlnum_toUpChar (halnum a (List.mem_cons_self _ _))
    · exact halnum c (List.mem_cons_of_mem _ h)

theorem camelList_head (s : List Char) :
    ∀ c cs, camelList s = c :: cs → isLo c = false := by
  intro c cs h
  rw [camelList] at h
  cases hsp : splitFrags s with
  | nil => rw [hsp] at h; simp at h
  | cons w ws =>
    cases w with
    | nil =>
      exact absurd rfl (frags_ne_nil s [] (by rw [hsp]; exact List.mem_cons_self _ _))
    | cons a as =>
      rw [hsp] at h
      have : camelList s = toUpChar a :: (as ++ (ws.map capFrag).flatten) := by
        rw [camelList, hsp]
        simp [capFrag]
      rw [camelList, hsp] at this
      have hc : c = toUpChar a := by
        rw [this] at h
        exact (List.cons.injEq ..).mp h |>.1.symm
      rw [hc]
      exact isLo_toUpChar a

theorem camelList_idem (s : List Char) : camelList (camelList s) = camelList s :=
  camelList_fix _ (mem_camelList_alnum s) (camelList_head s)

/-- `lowerCamelList` fixes any all-alphanumeric string whose first character
is not an uppercase letter. -/
theorem lowerCamelList_fix (t : List Char) (h1 : ∀ c ∈ t, isAlnum c = true)
    (h2 : ∀ c cs, t = c :: cs → isUp c = false) : lowerCamelList t = t := by
  cases t with
  | nil => rfl
  | cons c cs =>
    obtain ⟨w, ws, hsp, hws⟩ := splitFrags_shape cs c
      (h1 c (List.mem_cons_self _ _)) (fun x hx => h1 x (List.mem_cons_of_mem _ hx))
    have hmap : ws.map capFrag = ws := by
      apply map_capFrag_self
      intro w' hw'
      obtain ⟨hd, tl, hw, hup⟩ := hws w' hw'
      rw [hw, capFrag_of_head_up tl hup]
    have hlow : lowFrag (c :: w) = c :: w := by
      simp [lowFrag, toLoChar_of_not_up (h2 c cs rfl)]
    have hfl : (splitFrags (c :: cs)).flatten = c :: cs := by
      rw [flatten_splitFrags]
      exact List.filter_eq_self.mpr h1
    calc lowerCamelList (c :: cs)
        = lowFrag (c :: w) ++ (ws.map capFrag).flatten := by rw [lowerCamelList, hsp]
      _ = (c :: w) ++ ws.flatten := by rw [hlow, hmap]
      _ = ((c :: w) :: ws).flatten := by simp
      _ = (splitFrags (c :: cs)).flatten := by rw [hsp]
      _ = c :: cs := hfl

theorem mem_lowerCamelList_alnum (s : List Char) :
    ∀ c ∈ lowerCamelList s, isAlnum c = true := by
  intro c hc
  rw [lowerCamelList] at hc
  cases hsp : splitFrags s with
  | nil => rw [hsp] at hc; simp at hc
  | cons w ws =>
    rw [hsp] at hc
    rcases List.mem_append.mp hc with h | h
    · cases w with
      | nil => simp [lowFrag] at h
      | cons a as =>
        have halnum := frags_alnum s (a :: as) (by rw [hsp]; exact List.mem_cons_self _ _)
        rcases List.mem_cons.mp (by simpa [lowFrag] using h) with h1 | h1
        · subst h1
          exact isAlnum_toLoChar (halnum a (List.mem_cons_self _ _))
        · exact halnum c (List.mem_cons_of_mem _ h1)
    · obtain ⟨l, hl, hcl⟩ := List.mem_flatten.mp h
      obtain ⟨w', hw', hwl⟩ := List.mem_map.mp hl
      subst hwl
      cases w' with
      | nil => simp [capFrag] at hcl
      | cons a as =>
        have halnum := frags_alnum s (a :: as)
          (by rw [hsp]; exact List.mem_cons_of_mem _ hw')
        rcases List.mem_cons.mp (by simpa [capFrag] using hcl) with h1 | h1
        · subst h1
          exact isAlnum_toUpChar (halnum a (List.mem_cons_self _ _))
        · exact halnum c (List.mem_cons_of_mem _ h1)

theorem lowerCamelList_head (s : List Char) :
    ∀ c cs, lowerCamelList s = c :: cs → isUp c = false := by
  intro c cs h
  rw [lowerCamelList] at h
  cases hsp : splitFrags s with
  | nil => rw [hsp] at h; simp at h
  | cons w ws =>
    cases w with
    | nil =>
      exact absurd rfl (frags_ne_nil s [] (by rw [hsp]; exact List.mem_cons_self _ _))
    | cons a as =>
      rw [hsp] at h
      have h2 : toLoChar a :: (as ++ (ws.map capFrag).flatten) = c :: cs := by
        simpa [lowFrag] using h
      have hc : c = toLoChar a := ((List.cons.injEq ..).mp h2).1.symm
      rw [hc]
      exact isUp_toLoChar a

theorem lowerCamelList_idem (s : List Char) :
    lowerCamelList (lowerCamelList s) = lowerCamelList s :=
  lowerCamelList_fix _ (mem_lowerCamelList_alnum s) (lowerCamelList_head s)

theorem toCamel_idem (s : String) : toCamel (toCamel s) = toCamel s :=
  congrArg String.mk (camelList_idem s.data)

theorem toLowerCamel_idem (s : String) :
    toLowerCamel (toLowerCamel s) = toLowerCamel s :=
  congrArg String.mk (lowerCamelList_idem s.data)

/-! ### Data model, from `cmd/ssegen/main.go` -/

/-- The `SSEEvent` struct: `key`, `event`, `description` (optional, zero value
`""`), `deprecated` (optional, zero value `false`). -/
structure SSEEvent where
  Key : String
  Event : String
  Description : String
  Deprecated : Bool
deriving DecidableEq

/-- The `OpenAPISpec` struct, flattened: the mapping parsed from
`components.x-sse-events`. A Go map with unique keys in unspecified iteration
order is modelled as an association list with pairwise-distinct keys, listed
in one iteration order; an absent section parses to a `nil` map, modelled as
`[]`. -/
structure OpenAPISpec where
  sseEvents : List (String × SSEEvent)
deriving DecidableEq

/-- The `Config` struct filled by `parseFlags`. -/
structure Config where
  Input : String
  Output : String
  TypeName : String
  Package : String
  Lang : String
deriving DecidableEq

/-- The `TemplateData` struct passed to the templates. -/
structure TemplateData where
  Package : String
  TypeName : String
  Events : List SSEEvent
deriving DecidableEq

/-! ### String comparison, as in `strings.Compare`

`strings.Compare` compares the UTF-8 encodings byte-wise; UTF-8 encoding is
order-isomorphic to code-point order, so byte-wise lexicographic order on
encodings equals lexicographic order on code points, which is what `strLe`
computes. -/

/-- `strLe a b` is `strings.Compare(a, b) <= 0` on the underlying character
lists. -/
def strLe : List Char → List Char → Bool
  | [], _ => true
  | _ :: _, [] => false
  | c :: cs, d :: ds =>
    if c.toNat < d.toNat then true
    else if d.toNat < c.toNat then false
    else strLe cs ds

theorem char_eq_of_toNat_eq {a b : Char} (h : a.toNat = b.toNat) : a = b :=
  Char.ext (UInt32.ext h)

theorem strLe_total : ∀ a b : List Char, strLe a b = true ∨ strLe b a = true
  | [], _ => Or.inl rfl
  | _ :: _, [] => Or.inr rfl
  | c :: cs, d :: ds => by
    rcases Nat.lt_trichotomy c.toNat d.toNat with h | h | h
    · left; simp [strLe, h]
    · have h2 : ¬ c.toNat < d.toNat := by omega
      have h3 : ¬ d.toNat < c.toNat := by omega
      rcases strLe_total cs ds with ih | ih
      · left; simp [strLe, h2, h3, ih]
      · right; simp [strLe, h2, h3, ih]
    · right; simp [strLe, h]

theorem strLe_trans : ∀ a b c : List Char,
    strLe a b = true → strLe b c = true → strLe a c = true
  | [], _, _, _, _ => rfl
  | _ :: _, [], _, hab, _ => by simp [strLe] at hab
  | a :: as, b :: bs, [], _, hbc => by simp [strLe] at hbc
  | a :: as, b :: bs, c :: cs, hab, hbc => by
    simp only [strLe] at hab hbc ⊢
    rcases Nat.lt_trichotomy a.toNat b.toNat with h1 | h1 | h1 <;>
      rcases Nat.lt_trichotomy b.toNat c.toNat with h2 | h2 | h2 <;>
      [skip; skip; skip; skip; skip; skip; skip; skip; skip] <;>
      first
      | (have : a.toNat < c.toNat := by omega
         simp [this])
      | (exfalso
         first
         | (rw [if_neg (by omega), if_pos (by omega)] at hab; exact Bool.false_ne_true hab)
         | (rw [if_neg (by omega), if_pos (by omega)] at hbc; exact Bool.false_ne_true hbc))
      | (have e1 : ¬ a.toNat < b.toNat := by omega
         have e2 : ¬ b.toNat < a.toNat := by omega
         have e3 : ¬ b.toNat < c.toNat := by omega
         have e4 : ¬ c.toNat < b.toNat := by omega
         have e5 : ¬ a.toNat < c.toNat := by omega
         have e6 : ¬ c.toNat < a.toNat := by omega
         rw [if_neg e1, if_neg e2] at hab
         rw [if_neg e3, if_neg e4] at hbc
         rw [if_neg e5, if_neg e6]
         exact strLe_trans as bs cs hab hbc)

theorem strLe_antisymm : ∀ a b : List Char,
    strLe a b = true → strLe b a = true → a = b
  | [], [], _, _ => rfl
  | [], _ :: _, _, hba => by simp [strLe] at hba
  | _ :: _, [], hab, _ => by simp [strLe] at hab
  | a :: as, b :: bs, hab, hba => by
    simp only [strLe] at hab hba
    rcases Nat.lt_trichotomy a.toNat b.toNat with h | h | h
    · rw [if_neg (by omega), if_pos (by omega)] at hba
      exact absurd hba Bool.false_ne_true
    · rw [if_neg (by omega), if_neg (by omega)] at hab hba
      rw [char_eq_of_toNat_eq h, strLe_antisymm as bs hab hba]
    · rw [if_neg (by omega), if_pos (by omega)] at hab
      exact absurd hab Bool.false_ne_true

/-- The sort comparison in `getEvents`:
`strings.Compare(a.Key, b.Key) <= 0`. -/
def keyLe (a b : SSEEvent) : Prop := strLe a.Key.data b.Key.data = true

instance : DecidableRel keyLe := fun _ _ =>
  inferInstanceAs (Decidable (_ = true))

instance : IsTotal SSEEvent keyLe :=
  ⟨fun a b => strLe_total a.Key.data b.Key.data⟩

instance : IsTrans SSEEvent keyLe :=
  ⟨fun a b c => strLe_trans a.Key.data b.Key.data c.Key.data⟩

/-- Strict version of `keyLe`: strictly smaller key. -/
def keyLt (a b : SSEEvent) : Prop := keyLe a b ∧ a.Key ≠ b.Key

instance : IsAntisymm SSEEvent keyLt :=
  ⟨fun _ _ h1 h2 =>
    absurd (String.ext (strLe_antisymm _ _ h1.1 h2.1)) h1.2⟩

/-! ### `getEvents`, post-parse -/

/-- The loop body of `getEvents`:
`event.Key = strcase.ToCamel(key); event.Event = strcase.ToLowerCamel(event.Event)`. -/
def normEvent (p : String × SSEEvent) : SSEEvent :=
  { p.2 with Key := toCamel p.1, Event := toLowerCamel p.2.Event }

/-- The body of Go `getEvents` after the YAML document has been parsed (file
reading and unmarshalling are I/O performed upstream; after a successful
parse the body is total and never returns an error). The loop maps
`normEvent` over the entries in iteration order, then `slices.SortFunc`
sorts by `strings.Compare` on the rewritten keys. `slices.SortFunc` runs an
insertion sort on slices shorter than 12 elements, which is what
`List.insertionSort` models; like the Go sort it is stable there, so ties
keep iteration order. -/
def getEvents (m : List (String × SSEEvent)) : List SSEEvent :=
  List.insertionSort keyLe (m.map normEvent)

theorem getEvents_sorted (m : List (String × SSEEvent)) :
    List.Sorted keyLe (getEvents m) :=
  List.sorted_insertionSort keyLe (m.map normEvent)

theorem getEvents_perm (m : List (String × SSEEvent)) :
    List.Perm (getEvents m) (m.map normEvent) :=
  List.perm_insertionSort keyLe (m.map normEvent)

theorem getEvents_length (m : List (String × SSEEvent)) :
    (getEvents m).length = m.length := by
  rw [(getEvents_perm m).length_eq, List.length_map]

theorem normEvent_key (p : String × SSEEvent) :
    (normEvent p).Key = toCamel p.1 := rfl

theorem map_key_map_normEvent (m : List (String × SSEEvent)) :
    (m.map normEvent).map SSEEvent.Key = m.map fun p => toCamel p.1 := by
  rw [List.map_map]
  rfl

/-- A list sorted under `keyLe` with pairwise-distinct keys is sorted under
the strict order `keyLt`. -/
theorem sorted_keyLt_of_sorted_keyLe {l : List SSEEvent}
    (hs : List.Sorted keyLe l) (hn : (l.map SSEEvent.Key).Nodup) :
    List.Sorted keyLt l := by
  have hne : List.Pairwise (fun a b : SSEEvent => a.Key ≠ b.Key) l :=
    List.pairwise_map.mp hn
  exact hs.imp₂ (fun a b h1 h2 => ⟨h1, h2⟩) hne

/-- Normalized keys of the output, as a permutation of the normalized input
keys. -/
theorem getEvents_keys_perm (m : List (String × SSEEvent)) :
    List.Perm ((getEvents m).map SSEEvent.Key) (m.map fun p => toCamel p.1) := by
  rw [← map_key_map_normEvent]
  exact (getEvents_perm m).map SSEEvent.Key

/-- The output list is uniquely determined by the multiset of entries when
the normalized keys are pairwise distinct. -/
theorem getEvents_eq_of_perm {m₁ m₂ : List (String × SSEEvent)}
    (hperm : List.Perm m₁ m₂)
    (hnodup : (m₁.map fun p => toCamel p.1).Nodup) :
    getEvents m₁ = getEvents m₂ := by
  have hp : List.Perm (getEvents m₁) (getEvents m₂) :=
    ((getEvents_perm m₁).trans (hperm.map normEvent)).trans (getEvents_perm m₂).symm
  have hn₁ : ((getEvents m₁).map SSEEvent.Key).Nodup :=
    ((getEvents_keys_perm m₁).nodup_iff).mpr hnodup
  have hn₂ : ((getEvents m₂).map SSEEvent.Key).Nodup :=
    ((getEvents_keys_perm m₂).nodup_iff).mpr ((hperm.map fun p => toCamel p.1).nodup_iff.mp hnodup)
  exact List.eq_of_perm_of_sorted hp
    (sorted_keyLt_of_sorted_keyLe (getEvents_sorted m₁) hn₁)
    (sorted_keyLt_of_sorted_keyLe (getEvents_sorted m₂) hn₂)

/-! ### Renderer and pipeline

The two templates (`templates/go.tmpl`, `templates/ts.tmpl`, read through
`go:embed`) and the Go source formatter (`go/format.Source`) are external
collaborators whose text is not part of the repository source; they are taken
as parameters. A template execution or formatting failure is the `.error`
case. -/

/-- Modelled from the spec: each template defines "one constant/member per
EventList entry exposing `key` as the symbol name and `wireName` as its
associated literal value". `templateMembers` is that member list for a given
`TemplateData` (the templates' literal syntax is out of scope). -/
def templateMembers (d : TemplateData) : List (String × String) :=
  d.Events.map fun e => (e.Key, e.Event)

/-- The result of a run that got past flag parsing: either a terminal error
(printed to stderr, exit status 1, no file written) or the single output file
write (path and contents). -/
structure FileWrite where
  path : String
  contents : String
deriving DecidableEq

/-- `generateCode`: switch on `config.Lang`; for `go`, execute the go
template and pass the rendered text through `format.Source`; for `ts`,
return the rendered ts template text unchanged; otherwise fail.
`goTmpl`/`tsTmpl` model template rendering (`template.Parse` + `Execute`,
with failures as `.error`), `formatSource` models `go/format.Source`. -/
def generateCode (goTmpl tsTmpl : TemplateData → Except String String)
    (formatSource : String → Except String String)
    (tmplData : TemplateData) (config : Config) : Except String String :=
  if config.Lang = "go" then
    (goTmpl tmplData).bind formatSource
  else if config.Lang = "ts" then
    tsTmpl tmplData
  else
    Except.error ("unsupported language: " ++ config.Lang)

/-- The `TemplateData` built in `generateSSEEvents`. -/
def tmplDataOf (config : Config) (spec : OpenAPISpec) : TemplateData :=
  { Package := config.Package
    TypeName := config.TypeName
    Events := getEvents spec.sseEvents }

/-- `generateSSEEvents`: build events and template data, run `generateCode`;
on error return it (the caller prints it and exits 1) without reaching
`os.MkdirAll`/`os.WriteFile`; on success write the generated bytes to
`config.Output`. The write itself is modelled by the returned `FileWrite`:
an `.error` result means the destination file was never written. -/
def generateSSEEvents (goTmpl tsTmpl : TemplateData → Except String String)
    (formatSource : String → Except String String)
    (spec : OpenAPISpec) (config : Config) : Except String FileWrite :=
  match generateCode goTmpl tsTmpl formatSource (tmplDataOf config spec) config with
  | Except.error e => Except.error ("error generating code: " ++ e)
  | Except.ok generated => Except.ok { path := config.Output, contents := generated }

/-- `parseFlags`: after `flag.Parse`, a missing `-i`, `-o` or `-lang` (the
flags default to `""`) or a `-lang` other than `go`/`ts` prints the usage
text and exits with status 1 (`none`); otherwise the parsed `Config` is
returned. -/
def parseFlags (config : Config) : Option Config :=
  if config.Input = "" ∨ config.Output = "" ∨ config.Lang = "" then none
  else if config.Lang ≠ "go" ∧ config.Lang ≠ "ts" then none
  else some config

/-- Outcome of `main`: either the usage-error path (usage text printed,
`os.Exit(1)` before any file is read or written) or a run of
`generateSSEEvents` on the parsed configuration. -/
inductive MainOutcome where
  | usageExit
  | ran (result : Except String FileWrite)

/-- `main`, gated by `parseFlags`: the generation pipeline (which performs
the input read, directory creation and output write) runs only when flag
validation passed. -/
def mainModel (goTmpl tsTmpl : TemplateData → Except String String)
    (formatSource : String → Except String String)
    (config : Config) (spec : OpenAPISpec) : MainOutcome :=
  match parseFlags config with
  | none => MainOutcome.usageExit
  | some c => MainOutcome.ran (generateSSEEvents goTmpl tsTmpl formatSource spec c)

/-! ### Claims -/

/-- C1: for every input whose `components.x-sse-events` mapping parses
successfully, the list returned by `getEvents` is sorted ascending by the
normalized key under byte-wise lexicographic comparison (`keyLe`), and is a
permutation of the normalized input entries - exactly one output entry per
input mapping key, cardinality preserved. -/
theorem getEvents_sorted_and_complete (m : List (String × SSEEvent)) :
    List.Sorted keyLe (getEvents m) ∧
    List.Perm (getEvents m) (m.map normEvent) ∧
    (getEvents m).length = m.length :=
  ⟨getEvents_sorted m, getEvents_perm m, getEvents_length m⟩

/-- C2: on the mapping `{message_start: {event: message_start, description:
"start"}, message_end: {event: message_end, deprecated: true}}` - in either
iteration order - `getEvents` returns exactly
`[{key: MessageEnd, wireName: messageEnd, deprecated: true},
  {key: MessageStart, wireName: messageStart, description: "start"}]`. -/
theorem getEvents_roundtrip_example :
    getEvents [("message_start", ⟨"", "message_start", "start", false⟩),
               ("message_end", ⟨"", "message_end", "", true⟩)] =
      [⟨"MessageEnd", "messageEnd", "", true⟩,
       ⟨"MessageStart", "messageStart", "start", false⟩] ∧
    getEvents [("message_end", ⟨"", "message_end", "", true⟩),
               ("message_start", ⟨"", "message_start", "start", false⟩)] =
      [⟨"MessageEnd", "messageEnd", "", true⟩,
       ⟨"MessageStart", "messageStart", "start", false⟩] := by
  constructor <;> decide

/-- C3: when the `components.x-sse-events` sub-mapping is absent the parsed
mapping is the `nil` map, `getEvents` returns the empty list - the post-parse
body of `getEvents` has no error path, so this is a success, not an error -
and the template data exposes zero members to generate. -/
theorem absent_section_empty_ok (pkg ty : String) :
    getEvents (OpenAPISpec.mk []).sseEvents = [] ∧
    templateMembers { Package := pkg, TypeName := ty,
                      Events := getEvents (OpenAPISpec.mk []).sseEvents } = [] :=
  ⟨rfl, rfl⟩

/-- C4: with target language `go`, `generateCode` passes the rendered
template text through the Go source formatter before returning it, and when
formatting fails the run ends in the error branch of `generateSSEEvents` -
before the destination file is written, so no `FileWrite` is produced. -/
theorem go_format_failure_no_write
    (goTmpl tsTmpl : TemplateData → Except String String)
    (formatSource : String → Except String String)
    (spec : OpenAPISpec) (config : Config) (hlang : config.Lang = "go") :
    generateCode goTmpl tsTmpl formatSource (tmplDataOf config spec) config
      = (goTmpl (tmplDataOf config spec)).bind formatSource ∧
    ∀ rendered err, goTmpl (tmplDataOf config spec) = Except.ok rendered →
      formatSource rendered = Except.error err →
      generateSSEEvents goTmpl tsTmpl formatSource spec config
        = Except.error ("error generating code: " ++ err) := by
  constructor
  · rw [generateCode, if_pos hlang]
  · intro rendered err hr hf
    rw [generateSSEEvents, generateCode, if_pos hlang, hr]
    simp [Except.bind, hf]

theorem go_format_failure_no_write_witness :
    generateSSEEvents (fun _ => Except.ok "rendered go code")
      (fun _ => Except.ok "") (fun _ => Except.error "format failed")
      (OpenAPISpec.mk []) (Config.mk "api.yaml" "out.go" "SSEEvent" "events" "go")
      = Except.error "error generating code: format failed" :=
  (go_format_failure_no_write (fun _ => Except.ok "rendered go code")
      (fun _ => Except.ok "") (fun _ => Except.error "format failed")
      (OpenAPISpec.mk []) (Config.mk "api.yaml" "out.go" "SSEEvent" "events" "go")
      rfl).2 "rendered go code" "format failed" rfl rfl

/-- C5: with target language `ts`, `generateCode` returns the ts template
output unchanged (no formatting pass), and the bytes of the written output
file are exactly that rendered text. -/
theorem ts_output_verbatim
    (goTmpl tsTmpl : TemplateData → Except String String)
    (formatSource : String → Except String String)
    (spec : OpenAPISpec) (config : Config) (hlang : config.Lang = "ts")
    (out : String) (hts : tsTmpl (tmplDataOf config spec) = Except.ok out) :
    generateCode goTmpl tsTmpl formatSource (tmplDataOf config spec) config
      = tsTmpl (tmplDataOf config spec) ∧
    generateSSEEvents goTmpl tsTmpl formatSource spec config
      = Except.ok { path := config.Output, contents := out } := by
  have hne : config.Lang ≠ "go" := by rw [hlang]; decide
  constructor
  · rw [generateCode, if_neg hne, if_pos hlang]
  · rw [generateSSEEvents, generateCode, if_neg hne, if_pos hlang, hts]

theorem ts_output_verbatim_witness :
    generateSSEEvents (fun _ => Except.ok "ignored")
      (fun _ => Except.ok "export enum ...") (fun _ => Except.error "unused")
      (OpenAPISpec.mk []) (Config.mk "api.yaml" "out.ts" "SSEEvent" "events" "ts")
      = Except.ok { path := "out.ts", contents := "export enum ..." } :=
  (ts_output_verbatim (fun _ => Except.ok "ignored")
      (fun _ => Except.ok "export enum ...") (fun _ => Except.error "unused")
      (OpenAPISpec.mk []) (Config.mk "api.yaml" "out.ts" "SSEEvent" "events" "ts")
      rfl "export enum ..." rfl).2

/-- C6: a missing `-i`, `-o` or `-lang` (empty value) or a `-lang` other
than `go`/`ts` makes `parseFlags` print usage and exit 1, so `main` never
reaches the generation pipeline: no input read, no directory creation, no
output write. -/
theorem missing_flags_usage_exit
    (goTmpl tsTmpl : TemplateData → Except String String)
    (formatSource : String → Except String String)
    (config : Config) (spec : OpenAPISpec)
    (h : config.Input = "" ∨ config.Output = "" ∨ config.Lang = "" ∨
      (config.Lang ≠ "go" ∧ config.Lang ≠ "ts")) :
    parseFlags config = none ∧
    mainModel goTmpl tsTmpl formatSource config spec = MainOutcome.usageExit := by
  have hp : parseFlags config = none := by
    rcases h with h | h | h | h
    · rw [parseFlags, if_pos (Or.inl h)]
    · rw [parseFlags, if_pos (Or.inr (Or.inl h))]
    · rw [parseFlags, if_pos (Or.inr (Or.inr h))]
    · by_cases hm : config.Input = "" ∨ config.Output = "" ∨ config.Lang = ""
      · rw [parseFlags, if_pos hm]
      · rw [parseFlags, if_neg hm, if_pos h]
  exact ⟨hp, by rw [mainModel, hp]⟩

theorem missing_flags_usage_exit_witness :
    parseFlags (Config.mk "" "out.go" "SSEEvent" "events" "go") = none ∧
    mainModel (fun _ => Except.ok "") (fun _ => Except.ok "")
      (fun _ => Except.ok "") (Config.mk "" "out.go" "SSEEvent" "events" "go")
      (OpenAPISpec.mk []) = MainOutcome.usageExit :=
  missing_flags_usage_exit (fun _ => Except.ok "") (fun _ => Except.ok "")
    (fun _ => Except.ok "") (Config.mk "" "out.go" "SSEEvent" "events" "go")
    (OpenAPISpec.mk []) (Or.inl rfl)

/-- C7 (counterexample): the raw keys `a_b` and `aB` are distinct, yet both
normalize to key `AB`; the two iteration orders of the same two-entry
mapping then produce different `EventList`s (the sort is stable for ties on
two elements, as Go's `slices.SortFunc` insertion sort is), so the output is
not independent of iteration order as the claim states. -/
theorem getEvents_order_dependent_on_collision :
    List.Perm [("a_b", (⟨"", "x", "", false⟩ : SSEEvent)), ("aB", ⟨"", "y", "", false⟩)]
              [("aB", (⟨"", "y", "", false⟩ : SSEEvent)), ("a_b", ⟨"", "x", "", false⟩)] ∧
    ([("a_b", (⟨"", "x", "", false⟩ : SSEEvent)), ("aB", ⟨"", "y", "", false⟩)].map
      Prod.fst).Nodup ∧
    getEvents [("a_b", ⟨"", "x", "", false⟩), ("aB", ⟨"", "y", "", false⟩)] ≠
      getEvents [("aB", ⟨"", "y", "", false⟩), ("a_b", ⟨"", "x", "", false⟩)] := by
  refine ⟨?_, ?_, ?_⟩ <;> decide

/-- C7 (amended): for every input mapping on which key normalization is
injective - no two keys normalize to the same value - the `EventList`
produced by `getEvents` is the same for any two iteration orders of the
mapping. -/
theorem getEvents_deterministic_of_injective
    {m₁ m₂ : List (String × SSEEvent)} (hperm : List.Perm m₁ m₂)
    (hnodup : (m₁.map fun p => toCamel p.1).Nodup) :
    getEvents m₁ = getEvents m₂ :=
  getEvents_eq_of_perm hperm hnodup

theorem getEvents_deterministic_of_injective_witness :
    getEvents [("message_start", ⟨"", "message_start", "start", false⟩),
               ("message_end", ⟨"", "message_end", "", true⟩)] =
      getEvents [("message_end", ⟨"", "message_end", "", true⟩),
                 ("message_start", ⟨"", "message_start", "start", false⟩)] :=
  getEvents_deterministic_of_injective (by decide) (by decide)

/-- C8: normalization is idempotent: re-normalizing an already normalized
key yields the same key, and re-normalizing an already normalized wire name
yields the same wire name. -/
theorem normalization_idempotent (s : String) :
    toCamel (toCamel s) = toCamel s ∧
    toLowerCamel (toLowerCamel s) = toLowerCamel s :=
  ⟨toCamel_idem s, toLowerCamel_idem s⟩

/-- C9 (counterexample): a mapping with the distinct keys `foo_bar` and
`fooBar` - unique as map keys - produces an `EventList` whose normalized
keys are both `FooBar`: the normalized keys are not pairwise distinct and
the sort does encounter a tie. -/
theorem normalized_keys_collision :
    ([("foo_bar", (⟨"", "a", "", false⟩ : SSEEvent)), ("fooBar", ⟨"", "b", "", false⟩)].map
      Prod.fst).Nodup ∧
    ¬ ((getEvents [("foo_bar", ⟨"", "a", "", false⟩),
        ("fooBar", ⟨"", "b", "", false⟩)]).map SSEEvent.Key).Nodup := by
  constructor <;> decide

/-- C9 (amended): for every input mapping whose keys have pairwise-distinct
normalized forms, the normalized keys in the list produced by `getEvents`
are pairwise distinct; distinct raw keys alone do not guarantee this, since
normalization can collide (see the counterexample). -/
theorem getEvents_keys_nodup_of_injective
    {m : List (String × SSEEvent)}
    (hnodup : (m.map fun p => toCamel p.1).Nodup) :
    ((getEvents m).map SSEEvent.Key).Nodup :=
  (getEvents_keys_perm m).nodup_iff.mpr hnodup

theorem getEvents_keys_nodup_of_injective_witness :
    ((getEvents [("message_start", ⟨"", "message_start", "start", false⟩),
        ("message_end", ⟨"", "message_end", "", true⟩)]).map SSEEvent.Key).Nodup :=
  getEvents_keys_nodup_of_injective (by decide)

/-- C10: a descriptor whose `event` field is omitted (Go zero value `""`) or
empty is not rejected: `getEvents` performs no validation, succeeds, and the
corresponding output descriptor's wire name is the empty string. -/
theorem empty_event_no_validation
    (m : List (String × SSEEvent)) (p : String × SSEEvent)
    (hp : p ∈ m) (he : p.2.Event = "") :
    (normEvent p).Event = "" ∧ normEvent p ∈ getEvents m := by
  constructor
  · show toLowerCamel p.2.Event = ""
    rw [he]
    decide
  · exact (getEvents_perm m).mem_iff.mpr (List.mem_map.mpr ⟨p, hp, rfl⟩)

theorem empty_event_no_validation_witness :
    (normEvent ("ping", (⟨"", "", "", false⟩ : SSEEvent))).Event = "" ∧
    normEvent ("ping", (⟨"", "", "", false⟩ : SSEEvent)) ∈
      getEvents [("ping", ⟨"", "", "", false⟩)] :=
  empty_event_no_validation [("ping", ⟨"", "", "", false⟩)]
    ("ping", ⟨"", "", "", false⟩) (List.mem_cons_self _ _) rfl

end SSEGen
